import Mathlib

/-!
Verification development for `charlton/desc.py`: the formula-calculus
evaluator that turns a parsed model-formula tree into a `ModelDesc`.
Factors are identified by their name/code string (faithful to
`LookupFactor`/`EvalFactor` equality, which is by identifying key);
origins are identified by a natural-number tag standing for the source
span attached to a parse node.
-/

namespace Charlton

/-- A factor, identified by its name (`LookupFactor`) or source code text
(`EvalFactor`); equality of factors in the source is by this key. -/
abbrev Factor := String

/-- Modelled from the spec: `to_unique_tuple` from `charlton/util.py` (that
file is not under src/); per the spec, term/factor sequences are "built by
removing exact duplicates while preserving first-seen order" ("first
occurrence wins, set-equality dedup"), duplicates being detected with the
elements' own equality (`BEq`). -/
def to_unique_tuple {α : Type} [BEq α] : List α → List α
  | [] => []
  | x :: xs => x :: (to_unique_tuple xs).filter (fun y => !(y == x))

/-- `Term`: an ordered-unique tuple of factors (`Term.__init__` applies
`to_unique_tuple`). The raw structure field holds the already-deduplicated
factors; `Term.make` is the constructor. -/
structure Term where
  factors : List Factor
deriving DecidableEq

/-- `Term(factors)` constructor from `desc.py`: dedups the factor list. -/
def Term.make (factors : List Factor) : Term :=
  ⟨to_unique_tuple factors⟩

/-- `Term.__eq__`: `frozenset(other.factors) == frozenset(self.factors)`,
i.e. mutual containment of the factor lists. -/
def Term.beq (t other : Term) : Bool :=
  other.factors.all (fun f => t.factors.contains f)
    && t.factors.all (fun f => other.factors.contains f)

instance : BEq Term := ⟨Term.beq⟩

/-- Model of Python's hash of a single factor (any fixed function of the
factor's identity key). -/
def factorHash (f : Factor) : Nat :=
  (f.toList.map Char.toNat).sum + f.length

/-- `Term.__hash__`: `hash((Term, frozenset(self.factors)))`. A frozenset's
hash is a commutative combination of its elements' hashes; we model it as
the sum of the factor hashes plus the factor count. -/
def Term.hashVal (t : Term) : Nat :=
  (t.factors.map factorHash).sum + t.factors.length

/-- `Term.name()`: join the factor names with `:`; the empty term is named
`Intercept`. -/
def Term.name (t : Term) : String :=
  if t.factors.isEmpty then "Intercept"
  else String.intercalate ":" t.factors

/-- `INTERCEPT = Term([])`. -/
def INTERCEPT : Term := Term.make []

/-- `CharltonError`: message plus the origin it is reported at (the origin
tag of the offending node, when one is attached). -/
structure CharltonError where
  msg : String
  origin : Option Nat
deriving DecidableEq

/-- `IntermediateExpr`: transient evaluation result. The raw fields hold
the stored state; `IntermediateExpr.make` is the constructor (which dedups
`terms` via `to_unique_tuple`). The source constructor's assertions
(`intercept → intercept_origin`, `¬(intercept ∧ intercept_removed)`) are
proved below as invariants of everything the evaluator builds. -/
structure IntermediateExpr where
  intercept : Bool
  intercept_origin : Option Nat
  intercept_removed : Bool
  terms : List Term
deriving DecidableEq

/-- `IntermediateExpr.__init__`. -/
def IntermediateExpr.make (intercept : Bool) (orig : Option Nat)
    (intercept_removed : Bool) (terms : List Term) : IntermediateExpr :=
  ⟨intercept, orig, intercept_removed, to_unique_tuple terms⟩

/-- `ModelDesc`: final output, a pair of ordered-unique term lists. -/
structure ModelDesc where
  lhs_termlist : List Term
  rhs_termlist : List Term
deriving DecidableEq

/-- `ModelDesc.__init__`: dedups both term lists. -/
def ModelDesc.make (lhs rhs : List Term) : ModelDesc :=
  ⟨to_unique_tuple lhs, to_unique_tuple rhs⟩

/-- `term_code` helper inside `ModelDesc.describe`: the intercept term
renders as `1`, every other term by its name. -/
def term_code (term : Term) : String :=
  if term == INTERCEPT then "1" else term.name

/-- `ModelDesc.describe()`. -/
def ModelDesc.describe (m : ModelDesc) : String :=
  let result := String.intercalate " + " (m.lhs_termlist.map term_code)
  let result := if result = "" then result ++ "~ " else result ++ " ~ "
  if m.rhs_termlist == [INTERCEPT] then
    result ++ term_code INTERCEPT
  else
    result ++ String.intercalate " + "
      ((if m.rhs_termlist.contains INTERCEPT then [] else ["0"])
        ++ (m.rhs_termlist.filter (fun t => !(t == INTERCEPT))).map term_code)

/-- Parse tree nodes, one constructor per `(node.type, arity)` pair that the
`Evaluator` dispatch table registers. Each node carries its origin tag; a
`NUMBER` node carries `int(token.extra)` when that parse succeeds (`none`
models the `ValueError` branch); a `PYTHON_EXPR` node carries its source
text. -/
inductive FTree where
  | ZERO (orig : Nat)
  | ONE (orig : Nat)
  | NUMBER (orig : Nat) (intValue : Option Int)
  | PYTHON_EXPR (orig : Nat) (code : String)
  | unary_plus (orig : Nat) (arg : FTree)
  | unary_minus (orig : Nat) (arg : FTree)
  | binary_plus (orig : Nat) (l r : FTree)
  | binary_minus (orig : Nat) (l r : FTree)
  | binary_prod (orig : Nat) (l r : FTree)
  | binary_div (orig : Nat) (l r : FTree)
  | binary_interact (orig : Nat) (l r : FTree)
  | binary_power (orig : Nat) (l r : FTree)
  | tilde_one (orig : Nat) (arg : FTree)
  | tilde_two (orig : Nat) (l r : FTree)
deriving DecidableEq

/-- `tree.origin`. -/
def FTree.origin : FTree → Nat
  | .ZERO o => o
  | .ONE o => o
  | .NUMBER o _ => o
  | .PYTHON_EXPR o _ => o
  | .unary_plus o _ => o
  | .unary_minus o _ => o
  | .binary_plus o _ _ => o
  | .binary_minus o _ _ => o
  | .binary_prod o _ _ => o
  | .binary_div o _ _ => o
  | .binary_interact o _ _ => o
  | .binary_power o _ _ => o
  | .tilde_one o _ => o
  | .tilde_two o _ _ => o

/-- `tree.type`, the dispatch key string of a node. -/
def FTree.type : FTree → String
  | .ZERO _ => "ZERO"
  | .ONE _ => "ONE"
  | .NUMBER _ _ => "NUMBER"
  | .PYTHON_EXPR _ _ => "PYTHON_EXPR"
  | .unary_plus _ _ => "+"
  | .unary_minus _ _ => "-"
  | .binary_plus _ _ _ => "+"
  | .binary_minus _ _ _ => "-"
  | .binary_prod _ _ _ => "*"
  | .binary_div _ _ _ => "/"
  | .binary_interact _ _ _ => ":"
  | .binary_power _ _ _ => "**"
  | .tilde_one _ _ => "~"
  | .tilde_two _ _ _ => "~"

/-- `_maybe_add_intercept`. -/
def _maybe_add_intercept (doit : Bool) (terms : List Term) : List Term :=
  if doit then INTERCEPT :: terms else terms

/-- `_check_interactable`: fails iff the expression has a pending present
intercept, reporting at the intercept's origin. -/
def _check_interactable (expr : IntermediateExpr) : Except CharltonError Unit :=
  if expr.intercept then
    Except.error ⟨"intercept term cannot interact with anything else",
                  expr.intercept_origin⟩
  else Except.ok ()

/-- The term list built by `_interaction`'s nested loops: the cross product
of the two term lists, each pair concatenated (left factors first). -/
def _interaction_terms (ls rs : List Term) : List Term :=
  ls.flatMap (fun l_term =>
    rs.map (fun r_term => Term.make (l_term.factors ++ r_term.factors)))

/-- `_interaction`. -/
def _interaction (left_expr right_expr : IntermediateExpr) :
    Except CharltonError IntermediateExpr :=
  match _check_interactable left_expr with
  | Except.error e => Except.error e
  | Except.ok _ =>
    match _check_interactable right_expr with
    | Except.error e => Except.error e
    | Except.ok _ =>
      Except.ok (IntermediateExpr.make false none false
        (_interaction_terms left_expr.terms right_expr.terms))

/-- The `for i in xrange(1, power)` loop of `_eval_binary_power`: `n` is the
number of remaining iterations, `big_expr` the growing product,
`all_terms` the accumulated term list. -/
def _power_loop (left_expr : IntermediateExpr) :
    Nat → IntermediateExpr → List Term → Except CharltonError (List Term)
  | 0, _, all_terms => Except.ok all_terms
  | n + 1, big_expr, all_terms =>
    match _interaction left_expr big_expr with
    | Except.error e => Except.error e
    | Except.ok big2 => _power_loop left_expr n big2 (all_terms ++ big2.terms)

/-- Result of one `Evaluator.eval` call: an `IntermediateExpr` from an
operator rule, or a `ModelDesc` from a `~` rule. -/
inductive EvalResult where
  | expr (e : IntermediateExpr)
  | model (m : ModelDesc)
deriving DecidableEq

/-- The error `Evaluator.eval` raises when `require_evalexpr` holds but a
rule produced a `ModelDesc` (a misplaced `~`), reported at that subtree. -/
def misplacedTilde (t : FTree) : CharltonError :=
  ⟨"~ can only be used once, and only at the top level", some t.origin⟩

/-- The `require_evalexpr=True` post-processing of a sub-evaluation: unwrap
an `IntermediateExpr`, turn a `ModelDesc` into the misplaced-`~` error. -/
def toExpr (t : FTree) (x : Except CharltonError EvalResult) :
    Except CharltonError IntermediateExpr :=
  match x with
  | Except.error e => Except.error e
  | Except.ok (EvalResult.expr e) => Except.ok e
  | Except.ok (EvalResult.model _) => Except.error (misplacedTilde t)

/-- The exponent extraction of `_eval_binary_power`: `power` starts at `-1`
and is replaced by `int(token.extra)` when the exponent node is `ONE` or a
`NUMBER` whose text parses as an integer. -/
def powerValue : FTree → Int
  | FTree.ONE _ => 1
  | FTree.NUMBER _ (some v) => v
  | _ => -1

/-- `Evaluator.eval`: the post-order tree walk through the dispatch table of
`desc.py`, one match arm per registered `(type, arity)` rule. Sub-trees are
evaluated with `require_evalexpr=True` (the `toExpr` wrapper). -/
def eval : FTree → Except CharltonError EvalResult
  | FTree.ZERO _ =>
    Except.ok (EvalResult.expr (IntermediateExpr.make false none true []))
  | FTree.ONE orig =>
    Except.ok (EvalResult.expr (IntermediateExpr.make true (some orig) false []))
  | FTree.NUMBER orig _ =>
    Except.error ⟨"numbers besides '0' and '1' are only allowed with **",
                  some orig⟩
  | FTree.PYTHON_EXPR _ code =>
    Except.ok (EvalResult.expr
      (IntermediateExpr.make false none false [Term.make [code]]))
  | FTree.unary_plus _ arg =>
    match toExpr arg (eval arg) with
    | Except.error e => Except.error e
    | Except.ok e => Except.ok (EvalResult.expr e)
  | FTree.unary_minus orig arg =>
    if arg.type == "ZERO" then
      Except.ok (EvalResult.expr (IntermediateExpr.make true (some orig) false []))
    else if arg.type == "ONE" then
      Except.ok (EvalResult.expr (IntermediateExpr.make false none true []))
    else
      Except.error ⟨"Unary minus can only be applied to 1 or 0", some orig⟩
  | FTree.binary_plus _ l r =>
    match toExpr l (eval l) with
    | Except.error e => Except.error e
    | Except.ok left_expr =>
      if r.type == "ZERO" then
        Except.ok (EvalResult.expr
          (IntermediateExpr.make false none true left_expr.terms))
      else
        match toExpr r (eval r) with
        | Except.error e => Except.error e
        | Except.ok right_expr =>
          if right_expr.intercept then
            Except.ok (EvalResult.expr
              (IntermediateExpr.make true right_expr.intercept_origin false
                (left_expr.terms ++ right_expr.terms)))
          else
            Except.ok (EvalResult.expr
              (IntermediateExpr.make left_expr.intercept
                left_expr.intercept_origin left_expr.intercept_removed
                (left_expr.terms ++ right_expr.terms)))
  | FTree.binary_minus _ l r =>
    match toExpr l (eval l) with
    | Except.error e => Except.error e
    | Except.ok left_expr =>
      if r.type == "ZERO" then
        Except.ok (EvalResult.expr
          (IntermediateExpr.make true (some r.origin) false left_expr.terms))
      else if r.type == "ONE" then
        Except.ok (EvalResult.expr
          (IntermediateExpr.make false none true left_expr.terms))
      else
        match toExpr r (eval r) with
        | Except.error e => Except.error e
        | Except.ok right_expr =>
          let terms := left_expr.terms.filter
            (fun term => !(right_expr.terms.contains term))
          if right_expr.intercept then
            Except.ok (EvalResult.expr
              (IntermediateExpr.make false none true terms))
          else
            Except.ok (EvalResult.expr
              (IntermediateExpr.make left_expr.intercept
                left_expr.intercept_origin left_expr.intercept_removed terms))
  | FTree.binary_prod _ l r =>
    match toExpr l (eval l) with
    | Except.error e => Except.error e
    | Except.ok left_expr =>
      match toExpr r (eval r) with
      | Except.error e => Except.error e
      | Except.ok right_expr =>
        match _interaction left_expr right_expr with
        | Except.error e => Except.error e
        | Except.ok inter =>
          Except.ok (EvalResult.expr
            (IntermediateExpr.make false none false
              (left_expr.terms ++ right_expr.terms ++ inter.terms)))
  | FTree.binary_div _ l r =>
    match toExpr l (eval l) with
    | Except.error e => Except.error e
    | Except.ok left_expr =>
      match toExpr r (eval r) with
      | Except.error e => Except.error e
      | Except.ok right_expr =>
        match _check_interactable left_expr with
        | Except.error e => Except.error e
        | Except.ok _ =>
          let left_combined := IntermediateExpr.make false none false
            [Term.make (left_expr.terms.flatMap Term.factors)]
          match _interaction left_combined right_expr with
          | Except.error e => Except.error e
          | Except.ok inter =>
            Except.ok (EvalResult.expr
              (IntermediateExpr.make false none false
                (left_expr.terms ++ inter.terms)))
  | FTree.binary_interact _ l r =>
    match toExpr l (eval l) with
    | Except.error e => Except.error e
    | Except.ok left_expr =>
      match toExpr r (eval r) with
      | Except.error e => Except.error e
      | Except.ok right_expr =>
        match _interaction left_expr right_expr with
        | Except.error e => Except.error e
        | Except.ok inter => Except.ok (EvalResult.expr inter)
  | FTree.binary_power _ l r =>
    match toExpr l (eval l) with
    | Except.error e => Except.error e
    | Except.ok left_expr =>
      match _check_interactable left_expr with
      | Except.error e => Except.error e
      | Except.ok _ =>
        let power := powerValue r
        if power < 1 then
          Except.error ⟨"'**' requires a positive integer", some r.origin⟩
        else
          let capped := min left_expr.terms.length power.toNat
          match _power_loop left_expr (capped - 1) left_expr left_expr.terms with
          | Except.error e => Except.error e
          | Except.ok all_terms =>
            Except.ok (EvalResult.expr
              (IntermediateExpr.make false none false all_terms))
  | FTree.tilde_one _ arg =>
    match toExpr arg (eval arg) with
    | Except.error e => Except.error e
    | Except.ok e =>
      let lhs := IntermediateExpr.make false none true []
      Except.ok (EvalResult.model
        (ModelDesc.make (_maybe_add_intercept lhs.intercept lhs.terms)
          (_maybe_add_intercept (!e.intercept_removed) e.terms)))
  | FTree.tilde_two _ l r =>
    match toExpr l (eval l) with
    | Except.error e => Except.error e
    | Except.ok left_expr =>
      match toExpr r (eval r) with
      | Except.error e => Except.error e
      | Except.ok right_expr =>
        Except.ok (EvalResult.model
          (ModelDesc.make
            (_maybe_add_intercept left_expr.intercept left_expr.terms)
            (_maybe_add_intercept (!right_expr.intercept_removed)
              right_expr.terms)))

/-- The interaction-order stages the spec describes for `**`: repeatedly
interact the original term set with the growing product (each stage's term
list deduplicated, as `_interaction` builds an `IntermediateExpr`),
accumulating every stage. `iterStages orig b n` is the concatenation of
the next `n` stages starting from the product `b`. -/
def iterStages (orig : List Term) (b : List Term) : Nat → List Term
  | 0 => []
  | n + 1 =>
    to_unique_tuple (_interaction_terms orig b)
      ++ iterStages orig (to_unique_tuple (_interaction_terms orig b)) n

/-- The rendering the spec describes for `describe()` (the claim's own
formulation, stated independently for comparison with the source's
`ModelDesc.describe`): render `"<lhs> ~ <rhs>"`, the intercept term
rendering as `1` and names joined with `" + "`; a right-hand list that is
exactly the singleton intercept renders as `1`; otherwise, when the
intercept is absent from the right-hand list, a `0` term leads the
remaining non-intercept term names. -/
def describe_claim (m : ModelDesc) : String :=
  let lhsStr := String.intercalate " + " (m.lhs_termlist.map term_code)
  let sep := if lhsStr = "" then "~ " else lhsStr ++ " ~ "
  let rhs :=
    if m.rhs_termlist == [INTERCEPT] then "1"
    else if m.rhs_termlist.contains INTERCEPT then
      String.intercalate " + "
        ((m.rhs_termlist.filter (fun t => !(t == INTERCEPT))).map term_code)
    else
      String.intercalate " + " ("0" :: m.rhs_termlist.map term_code)
  sep ++ rhs

/-- A list is `BUnique` when no later element tests `BEq`-equal to an
earlier one: the shape `to_unique_tuple` guarantees. -/
def BUnique {α : Type} [BEq α] (l : List α) : Prop :=
  l.Pairwise (fun a b => (b == a) = false)

/-- Well-formedness of a term list as the evaluator builds them: every term
has at least one factor (no stray intercept terms), and the list is
deduplicated. -/
def GoodTerms (ts : List Term) : Prop :=
  (∀ t ∈ ts, t.factors ≠ []) ∧ BUnique ts

/-- Well-formedness of an evaluator-produced `IntermediateExpr`, including
the source constructor's assertions. -/
def GoodExpr (e : IntermediateExpr) : Prop :=
  GoodTerms e.terms
    ∧ (e.intercept = true → e.intercept_removed = false ∧ e.intercept_origin.isSome = true)

section UniqueLemmas

variable {α : Type} [BEq α]

theorem mem_of_mem_to_unique_tuple {a : α} :
    ∀ {l : List α}, a ∈ to_unique_tuple l → a ∈ l
  | [], h => by simp [to_unique_tuple] at h
  | x :: xs, h => by
    simp only [to_unique_tuple, List.mem_cons] at h
    rcases h with h | h
    · exact h ▸ List.mem_cons_self x xs
    · exact List.mem_cons_of_mem x
        (mem_of_mem_to_unique_tuple (List.mem_filter.mp h).1)

theorem to_unique_tuple_buniq : ∀ (l : List α), BUnique (to_unique_tuple l)
  | [] => by simp [to_unique_tuple, BUnique]
  | x :: xs => by
    simp only [to_unique_tuple, BUnique, List.pairwise_cons]
    constructor
    · intro b hb
      have := (List.mem_filter.mp hb).2
      simpa using this
    · exact List.Pairwise.filter _ (to_unique_tuple_buniq xs)

theorem to_unique_tuple_eq_self : ∀ {l : List α}, BUnique l → to_unique_tuple l = l
  | [], _ => rfl
  | x :: xs, h => by
    rcases (List.pairwise_cons.mp h) with ⟨h1, h2⟩
    simp only [to_unique_tuple, to_unique_tuple_eq_self h2]
    congr 1
    apply List.filter_eq_self.mpr
    intro b hb
    simpa using h1 b hb

theorem buniq_filter {l : List α} (p : α → Bool) (h : BUnique l) :
    BUnique (l.filter p) :=
  List.Pairwise.filter p h

theorem mem_to_unique_tuple [LawfulBEq α] {a : α} :
    ∀ {l : List α}, a ∈ to_unique_tuple l ↔ a ∈ l
  | [] => Iff.rfl
  | x :: xs => by
    simp only [to_unique_tuple, List.mem_cons, List.mem_filter,
      mem_to_unique_tuple (l := xs)]
    constructor
    · rintro (h | ⟨h, _⟩)
      · exact Or.inl h
      · exact Or.inr h
    · rintro (h | h)
      · exact Or.inl h
      · by_cases hax : a = x
        · exact Or.inl hax
        · exact Or.inr ⟨h, by simp [hax]⟩

end UniqueLemmas

theorem term_beq_def (t u : Term) :
    (t == u) = (u.factors.all (fun f => t.factors.contains f)
      && t.factors.all (fun f => u.factors.contains f)) := rfl

theorem contains_iff_mem {α : Type} [BEq α] [LawfulBEq α] {l : List α} {a : α} :
    l.contains a = true ↔ a ∈ l := List.elem_iff

theorem term_beq_iff {t u : Term} :
    (t == u) = true ↔ (∀ f, f ∈ t.factors ↔ f ∈ u.factors) := by
  rw [term_beq_def]
  simp only [Bool.and_eq_true, List.all_eq_true, contains_iff_mem]
  constructor
  · rintro ⟨h1, h2⟩ f
    exact ⟨fun hf => h2 f hf, fun hf => h1 f hf⟩
  · intro h
    exact ⟨fun f hf => (h f).mpr hf, fun f hf => (h f).mp hf⟩

theorem term_beq_symm (t u : Term) : (t == u) = (u == t) := by
  rw [term_beq_def, term_beq_def, Bool.and_comm]

theorem term_beq_refl (t : Term) : (t == t) = true := by
  rw [term_beq_iff]
  intro f
  exact Iff.rfl

theorem intercept_factors : INTERCEPT.factors = [] := rfl

theorem term_beq_intercept {t : Term} :
    (t == INTERCEPT) = true ↔ t.factors = [] := by
  rw [term_beq_iff]
  constructor
  · intro h
    cases hf : t.factors with
    | nil => rfl
    | cons f fs =>
      have : f ∈ t.factors := hf ▸ List.mem_cons_self f fs
      have := (h f).mp this
      simp [intercept_factors] at this
  · intro h f
    rw [h, intercept_factors]

theorem term_make_factors_ne_nil {fs : List Factor} (h : fs ≠ []) :
    (Term.make fs).factors ≠ [] := by
  cases fs with
  | nil => exact absurd rfl h
  | cons f rest => simp [Term.make, to_unique_tuple]

theorem contains_eq_false_iff {l : List Term} {a : Term} :
    l.contains a = false ↔ ∀ b ∈ l, (a == b) = false := by
  induction l with
  | nil => simp
  | cons x xs ih =>
    simp only [List.contains_cons, Bool.or_eq_false_iff, ih, List.mem_cons]
    constructor
    · rintro ⟨h1, h2⟩ b hb
      rcases hb with rfl | hb
      · exact h1
      · exact h2 b hb
    · intro h
      exact ⟨h x (Or.inl rfl), fun b hb => h b (Or.inr hb)⟩

theorem mem_interaction_terms {t : Term} {ls rs : List Term} :
    t ∈ _interaction_terms ls rs →
    ∃ l ∈ ls, ∃ r ∈ rs, t = Term.make (l.factors ++ r.factors) := by
  intro h
  simp only [_interaction_terms, List.mem_flatMap, List.mem_map] at h
  rcases h with ⟨l, hl, r, hr, rfl⟩
  exact ⟨l, hl, r, hr, rfl⟩

theorem interaction_terms_ne_nil {ls rs : List Term}
    (hr : ∀ r ∈ rs, r.factors ≠ []) :
    ∀ t ∈ _interaction_terms ls rs, t.factors ≠ [] := by
  intro t ht
  rcases mem_interaction_terms ht with ⟨l, _, r, hrm, rfl⟩
  apply term_make_factors_ne_nil
  intro hcontr
  exact hr r hrm (List.append_eq_nil.mp hcontr).2

theorem check_interactable_ok {e : IntermediateExpr} (h : e.intercept = false) :
    _check_interactable e = Except.ok () := by
  simp [_check_interactable, h]

theorem check_interactable_error {e : IntermediateExpr} (h : e.intercept = true) :
    _check_interactable e = Except.error
      ⟨"intercept term cannot interact with anything else", e.intercept_origin⟩ := by
  simp [_check_interactable, h]

theorem interaction_eq {le re : IntermediateExpr}
    (hl : le.intercept = false) (hr : re.intercept = false) :
    _interaction le re = Except.ok (IntermediateExpr.make false none false
      (_interaction_terms le.terms re.terms)) := by
  simp [_interaction, check_interactable_ok hl, check_interactable_ok hr]

theorem interaction_error_left {le re : IntermediateExpr} (hl : le.intercept = true) :
    _interaction le re = Except.error
      ⟨"intercept term cannot interact with anything else", le.intercept_origin⟩ := by
  simp [_interaction, check_interactable_error hl]

theorem interaction_error_right {le re : IntermediateExpr}
    (hl : le.intercept = false) (hr : re.intercept = true) :
    _interaction le re = Except.error
      ⟨"intercept term cannot interact with anything else", re.intercept_origin⟩ := by
  simp [_interaction, check_interactable_ok hl, check_interactable_error hr]

theorem interaction_ok_good {le re inter : IntermediateExpr}
    (hre : ∀ t ∈ re.terms, t.factors ≠ [])
    (h : _interaction le re = Except.ok inter) :
    inter.intercept = false ∧ inter.intercept_removed = false ∧
      GoodTerms inter.terms := by
  cases hl : le.intercept with
  | true => rw [interaction_error_left hl] at h; cases h
  | false =>
    cases hr : re.intercept with
    | true => rw [interaction_error_right hl hr] at h; cases h
    | false =>
      rw [interaction_eq hl hr] at h
      cases h
      refine ⟨rfl, rfl, ?_, ?_⟩
      · intro t ht
        exact interaction_terms_ne_nil hre t (mem_of_mem_to_unique_tuple ht)
      · exact to_unique_tuple_buniq _

theorem power_loop_eq :
    ∀ (n : Nat) (left big : IntermediateExpr) (acc : List Term),
      left.intercept = false → big.intercept = false →
      _power_loop left n big acc =
        Except.ok (acc ++ iterStages left.terms big.terms n) := by
  intro n
  induction n with
  | zero => intro left big acc _ _; simp [_power_loop, iterStages]
  | succ n ih =>
    intro left big acc hl hb
    rw [_power_loop, interaction_eq hl hb]
    show _power_loop left n
        (IntermediateExpr.make false none false
          (_interaction_terms left.terms big.terms))
        (acc ++ (IntermediateExpr.make false none false
          (_interaction_terms left.terms big.terms)).terms)
      = Except.ok (acc ++ iterStages left.terms big.terms (n + 1))
    rw [ih left (IntermediateExpr.make false none false
      (_interaction_terms left.terms big.terms)) _ hl rfl]
    simp [iterStages, IntermediateExpr.make, List.append_assoc]

theorem power_loop_preserves :
    ∀ (n : Nat) (left big : IntermediateExpr) (acc res : List Term),
      (∀ t ∈ big.terms, t.factors ≠ []) → (∀ t ∈ acc, t.factors ≠ []) →
      _power_loop left n big acc = Except.ok res →
      ∀ t ∈ res, t.factors ≠ [] := by
  intro n
  induction n with
  | zero =>
    intro left big acc res _ hacc h
    rw [_power_loop] at h
    cases h
    exact hacc
  | succ n ih =>
    intro left big acc res hbig hacc h
    rw [_power_loop] at h
    cases hi : _interaction left big with
    | error e => rw [hi] at h; cases h
    | ok big2 =>
      rw [hi] at h
      rcases interaction_ok_good hbig hi with ⟨_, _, hb2, _⟩
      refine ih left big2 (acc ++ big2.terms) res hb2 ?_ h
      intro t ht
      rcases List.mem_append.mp ht with ht | ht
      · exact hacc t ht
      · exact hb2 t ht

theorem goodterms_tut {ts : List Term} (h : ∀ t ∈ ts, t.factors ≠ []) :
    GoodTerms (to_unique_tuple ts) :=
  ⟨fun t ht => h t (mem_of_mem_to_unique_tuple ht), to_unique_tuple_buniq ts⟩

theorem goodExpr_make {i : Bool} {orig : Option Nat} {ir : Bool} {ts : List Term}
    (hne : ∀ t ∈ ts, t.factors ≠ [])
    (hio : i = true → ir = false ∧ orig.isSome = true) :
    GoodExpr (IntermediateExpr.make i orig ir ts) :=
  ⟨goodterms_tut hne, hio⟩

theorem toExpr_ok {t : FTree} {x : Except CharltonError EvalResult}
    {e : IntermediateExpr} (h : toExpr t x = Except.ok e) :
    x = Except.ok (EvalResult.expr e) := by
  cases x with
  | error err => simp [toExpr] at h
  | ok r =>
    cases r with
    | expr e2 => simp [toExpr] at h; rw [h]
    | model m => simp [toExpr] at h

theorem eval_good : ∀ (t : FTree) (e : IntermediateExpr),
    eval t = Except.ok (EvalResult.expr e) → GoodExpr e := by
  intro t
  induction t with
  | ZERO o =>
    intro e h
    simp only [eval, Except.ok.injEq, EvalResult.expr.injEq] at h
    subst h
    exact goodExpr_make (by simp) (by simp)
  | ONE o =>
    intro e h
    simp only [eval, Except.ok.injEq, EvalResult.expr.injEq] at h
    subst h
    exact goodExpr_make (by simp) (by simp)
  | NUMBER o v =>
    intro e h
    simp [eval] at h
  | PYTHON_EXPR o code =>
    intro e h
    simp only [eval, Except.ok.injEq, EvalResult.expr.injEq] at h
    subst h
    refine goodExpr_make ?_ (by simp)
    intro t ht
    simp only [List.mem_singleton] at ht
    subst ht
    exact term_make_factors_ne_nil (by simp)
  | unary_plus o arg ih =>
    intro e h
    simp only [eval] at h
    cases ha : toExpr arg (eval arg) with
    | error err => rw [ha] at h; simp at h
    | ok e2 =>
      rw [ha] at h
      simp only [Except.ok.injEq, EvalResult.expr.injEq] at h
      subst h
      exact ih e2 (toExpr_ok ha)
  | unary_minus o arg ih =>
    intro e h
    simp only [eval] at h
    by_cases hz : (arg.type == "ZERO") = true
    · rw [if_pos hz] at h
      simp only [Except.ok.injEq, EvalResult.expr.injEq] at h
      subst h
      exact goodExpr_make (by simp) (by simp)
    · rw [if_neg hz] at h
      by_cases ho : (arg.type == "ONE") = true
      · rw [if_pos ho] at h
        simp only [Except.ok.injEq, EvalResult.expr.injEq] at h
        subst h
        exact goodExpr_make (by simp) (by simp)
      · rw [if_neg ho] at h
        simp at h
  | binary_plus o l r ihl ihr =>
    intro e h
    simp only [eval] at h
    cases hl : toExpr l (eval l) with
    | error err => rw [hl] at h; simp at h
    | ok le =>
      rw [hl] at h
      simp only [] at h
      have hgl := ihl le (toExpr_ok hl)
      by_cases hz : (r.type == "ZERO") = true
      · rw [if_pos hz] at h
        simp only [Except.ok.injEq, EvalResult.expr.injEq] at h
        subst h
        exact goodExpr_make hgl.1.1 (by simp)
      · rw [if_neg hz] at h
        cases hr : toExpr r (eval r) with
        | error err => rw [hr] at h; simp at h
        | ok re =>
          rw [hr] at h
          simp only [] at h
          have hgr := ihr re (toExpr_ok hr)
          have hne : ∀ t ∈ le.terms ++ re.terms, t.factors ≠ [] := by
            intro t ht
            rcases List.mem_append.mp ht with ht | ht
            · exact hgl.1.1 t ht
            · exact hgr.1.1 t ht
          by_cases hi : re.intercept = true
          · rw [if_pos hi] at h
            simp only [Except.ok.injEq, EvalResult.expr.injEq] at h
            subst h
            exact goodExpr_make hne (fun _ => ⟨rfl, (hgr.2 hi).2⟩)
          · rw [if_neg hi] at h
            simp only [Except.ok.injEq, EvalResult.expr.injEq] at h
            subst h
            exact goodExpr_make hne hgl.2
  | binary_minus o l r ihl ihr =>
    intro e h
    simp only [eval] at h
    cases hl : toExpr l (eval l) with
    | error err => rw [hl] at h; simp at h
    | ok le =>
      rw [hl] at h
      simp only [] at h
      have hgl := ihl le (toExpr_ok hl)
      by_cases hz : (r.type == "ZERO") = true
      · rw [if_pos hz] at h
        simp only [Except.ok.injEq, EvalResult.expr.injEq] at h
        subst h
        exact goodExpr_make hgl.1.1 (by simp)
      · rw [if_neg hz] at h
        by_cases ho : (r.type == "ONE") = true
        · rw [if_pos ho] at h
          simp only [Except.ok.injEq, EvalResult.expr.injEq] at h
          subst h
          exact goodExpr_make hgl.1.1 (by simp)
        · rw [if_neg ho] at h
          cases hr : toExpr r (eval r) with
          | error err => rw [hr] at h; simp at h
          | ok re =>
            rw [hr] at h
            simp only [] at h
            have hgr := ihr re (toExpr_ok hr)
            have hne : ∀ t ∈ le.terms.filter
                (fun term => !(re.terms.contains term)), t.factors ≠ [] := by
              intro t ht
              exact hgl.1.1 t (List.mem_filter.mp ht).1
            by_cases hi : re.intercept = true
            · rw [if_pos hi] at h
              simp only [Except.ok.injEq, EvalResult.expr.injEq] at h
              subst h
              exact goodExpr_make hne (by simp)
            · rw [if_neg hi] at h
              simp only [Except.ok.injEq, EvalResult.expr.injEq] at h
              subst h
              exact goodExpr_make hne hgl.2
  | binary_prod o l r ihl ihr =>
    intro e h
    simp only [eval] at h
    cases hl : toExpr l (eval l) with
    | error err => rw [hl] at h; simp at h
    | ok le =>
      rw [hl] at h
      simp only [] at h
      have hgl := ihl le (toExpr_ok hl)
      cases hr : toExpr r (eval r) with
      | error err => rw [hr] at h; simp at h
      | ok re =>
        rw [hr] at h
        simp only [] at h
        have hgr := ihr re (toExpr_ok hr)
        cases hi : _interaction le re with
        | error err => rw [hi] at h; simp at h
        | ok inter =>
          rw [hi] at h
          simp only [Except.ok.injEq, EvalResult.expr.injEq] at h
          subst h
          have hginter := interaction_ok_good hgr.1.1 hi
          refine goodExpr_make ?_ (by simp)
          intro t ht
          rcases List.mem_append.mp ht with ht | ht
          · rcases List.mem_append.mp ht with ht | ht
            · exact hgl.1.1 t ht
            · exact hgr.1.1 t ht
          · exact hginter.2.2.1 t ht
  | binary_div o l r ihl ihr =>
    intro e h
    simp only [eval] at h
    cases hl : toExpr l (eval l) with
    | error err => rw [hl] at h; simp at h
    | ok le =>
      rw [hl] at h
      simp only [] at h
      have hgl := ihl le (toExpr_ok hl)
      cases hr : toExpr r (eval r) with
      | error err => rw [hr] at h; simp at h
      | ok re =>
        rw [hr] at h
        simp only [] at h
        have hgr := ihr re (toExpr_ok hr)
        cases hc : _check_interactable le with
        | error err => rw [hc] at h; simp at h
        | ok u =>
          rw [hc] at h
          simp only [] at h
          cases hi : _interaction (IntermediateExpr.make false none false
              [Term.make (le.terms.flatMap Term.factors)]) re with
          | error err => rw [hi] at h; simp at h
          | ok inter =>
            rw [hi] at h
            simp only [Except.ok.injEq, EvalResult.expr.injEq] at h
            subst h
            have hginter := interaction_ok_good hgr.1.1 hi
            refine goodExpr_make ?_ (by simp)
            intro t ht
            rcases List.mem_append.mp ht with ht | ht
            · exact hgl.1.1 t ht
            · exact hginter.2.2.1 t ht
  | binary_interact o l r ihl ihr =>
    intro e h
    simp only [eval] at h
    cases hl : toExpr l (eval l) with
    | error err => rw [hl] at h; simp at h
    | ok le =>
      rw [hl] at h
      cases hr : toExpr r (eval r) with
      | error err => rw [hr] at h; simp at h
      | ok re =>
        rw [hr] at h
        simp only [] at h
        have hgr := ihr re (toExpr_ok hr)
        cases hi : _interaction le re with
        | error err => rw [hi] at h; simp at h
        | ok inter =>
          rw [hi] at h
          simp only [Except.ok.injEq, EvalResult.expr.injEq] at h
          subst h
          have hginter := interaction_ok_good hgr.1.1 hi
          exact ⟨hginter.2.2, fun hcontr => absurd hcontr (by simp [hginter.1])⟩
  | binary_power o l r ihl ihr =>
    intro e h
    simp only [eval] at h
    cases hl : toExpr l (eval l) with
    | error err => rw [hl] at h; simp at h
    | ok le =>
      rw [hl] at h
      simp only [] at h
      have hgl := ihl le (toExpr_ok hl)
      cases hc : _check_interactable le with
      | error err => rw [hc] at h; simp at h
      | ok u =>
        rw [hc] at h
        simp only [] at h
        by_cases hp : powerValue r < 1
        · rw [if_pos hp] at h
          simp at h
        · rw [if_neg hp] at h
          cases hloop : _power_loop le
              (min le.terms.length (powerValue r).toNat - 1) le le.terms with
          | error err => rw [hloop] at h; simp at h
          | ok all_terms =>
            rw [hloop] at h
            simp only [Except.ok.injEq, EvalResult.expr.injEq] at h
            subst h
            refine goodExpr_make ?_ (by simp)
            exact power_loop_preserves _ le le le.terms all_terms
              hgl.1.1 hgl.1.1 hloop
  | tilde_one o arg ih =>
    intro e h
    simp only [eval] at h
    cases ha : toExpr arg (eval arg) with
    | error err => rw [ha] at h; simp at h
    | ok e2 => rw [ha] at h; simp at h
  | tilde_two o l r ihl ihr =>
    intro e h
    simp only [eval] at h
    cases hl : toExpr l (eval l) with
    | error err => rw [hl] at h; simp at h
    | ok le =>
      rw [hl] at h
      simp only [] at h
      cases hr : toExpr r (eval r) with
      | error err => rw [hr] at h; simp at h
      | ok re => rw [hr] at h; simp at h

theorem tut_goodterms_eq {ts : List Term} (h : GoodTerms ts) :
    to_unique_tuple ts = ts :=
  to_unique_tuple_eq_self h.2

theorem tut_intercept_cons {ts : List Term} (h : GoodTerms ts) :
    to_unique_tuple (INTERCEPT :: ts) = INTERCEPT :: ts := by
  simp only [to_unique_tuple, to_unique_tuple_eq_self h.2]
  congr 1
  apply List.filter_eq_self.mpr
  intro t ht
  have hf : (t == INTERCEPT) = false := by
    cases hb : (t == INTERCEPT) with
    | false => rfl
    | true => exact absurd (term_beq_intercept.mp hb) (h.1 t ht)
  simp [hf]

theorem maybe_add_tut {b : Bool} {ts : List Term} (h : GoodTerms ts) :
    to_unique_tuple (_maybe_add_intercept b ts) =
      (if b then [INTERCEPT] else []) ++ ts := by
  cases b with
  | false => simpa [_maybe_add_intercept] using to_unique_tuple_eq_self h.2
  | true => simpa [_maybe_add_intercept] using tut_intercept_cons h

theorem toExpr_of_eval {l : FTree} {le : IntermediateExpr}
    (h : eval l = Except.ok (EvalResult.expr le)) :
    toExpr l (eval l) = Except.ok le := by
  rw [h]; rfl

/-- C1: for a two-argument `~` node, the resulting `ModelDesc`'s left-hand
term list is the left operand's terms with `INTERCEPT` prepended iff the
left operand declared an intercept, and the right-hand term list is the
right operand's terms with `INTERCEPT` prepended iff the right operand did
not explicitly remove its intercept; the one-argument `~` form behaves as
if the left side were the literal `0` (empty left-hand list). The witness
instantiates `"y ~ a + b"`, giving lhs `{y}` and rhs
`{INTERCEPT, a, b}`. -/
theorem C1_tilde_intercept_asymmetry :
    (∀ (o : Nat) (l r : FTree) (le re : IntermediateExpr),
      eval l = Except.ok (EvalResult.expr le) →
      eval r = Except.ok (EvalResult.expr re) →
      eval (FTree.tilde_two o l r) = Except.ok (EvalResult.model
        ⟨(if le.intercept then [INTERCEPT] else []) ++ le.terms,
         (if re.intercept_removed then [] else [INTERCEPT]) ++ re.terms⟩))
    ∧ (∀ (o : Nat) (r : FTree) (re : IntermediateExpr),
      eval r = Except.ok (EvalResult.expr re) →
      eval (FTree.tilde_one o r) = Except.ok (EvalResult.model
        ⟨[], (if re.intercept_removed then [] else [INTERCEPT]) ++ re.terms⟩)) := by
  constructor
  · intro o l r le re hl hr
    have hgl := eval_good l le hl
    have hgr := eval_good r re hr
    simp only [eval, toExpr_of_eval hl, toExpr_of_eval hr]
    simp only [ModelDesc.make, maybe_add_tut hgl.1, maybe_add_tut hgr.1]
    cases hrm : re.intercept_removed <;> simp
  · intro o r re hr
    have hgr := eval_good r re hr
    simp only [eval, toExpr_of_eval hr]
    simp only [ModelDesc.make, maybe_add_tut hgr.1]
    cases hrm : re.intercept_removed <;>
      simp [_maybe_add_intercept, IntermediateExpr.make, to_unique_tuple]

theorem C1_tilde_intercept_asymmetry_witness :
    eval (FTree.tilde_two 0 (FTree.PYTHON_EXPR 1 "y")
      (FTree.binary_plus 2 (FTree.PYTHON_EXPR 3 "a") (FTree.PYTHON_EXPR 4 "b"))) =
    Except.ok (EvalResult.model ⟨[Term.make ["y"]],
      [INTERCEPT, Term.make ["a"], Term.make ["b"]]⟩) := by
  have h := C1_tilde_intercept_asymmetry.1 0 (FTree.PYTHON_EXPR 1 "y")
    (FTree.binary_plus 2 (FTree.PYTHON_EXPR 3 "a") (FTree.PYTHON_EXPR 4 "b"))
    (IntermediateExpr.make false none false [Term.make ["y"]])
    (IntermediateExpr.make false none false [Term.make ["a"], Term.make ["b"]])
    rfl rfl
  simpa using h

/-- C2: a binary `+` whose right operand is the literal `0` yields an
expression with no intercept, `intercept_removed` set, and exactly the left
operand's terms, discarding the left operand's own intercept state; in
particular `"1 + 0"` has no intercept although its left operand asserted
one, while `"0 + 1"` has one. -/
theorem C2_plus_zero_removes_intercept :
    (∀ (o zo : Nat) (l : FTree) (le : IntermediateExpr),
      eval l = Except.ok (EvalResult.expr le) →
      eval (FTree.binary_plus o l (FTree.ZERO zo)) =
        Except.ok (EvalResult.expr ⟨false, none, true, le.terms⟩))
    ∧ eval (FTree.binary_plus 0 (FTree.ONE 1) (FTree.ZERO 2)) =
        Except.ok (EvalResult.expr ⟨false, none, true, []⟩)
    ∧ eval (FTree.binary_plus 0 (FTree.ZERO 1) (FTree.ONE 2)) =
        Except.ok (EvalResult.expr ⟨true, some 2, false, []⟩) := by
  refine ⟨?_, by rfl, by rfl⟩
  intro o zo l le hl
  have hgl := eval_good l le hl
  simp only [eval, toExpr_of_eval hl]
  simp only [FTree.type]
  simp only [IntermediateExpr.make, tut_goodterms_eq hgl.1]
  rfl

theorem C2_plus_zero_removes_intercept_witness :
    eval (FTree.binary_plus 7 (FTree.PYTHON_EXPR 8 "x") (FTree.ZERO 9)) =
      Except.ok (EvalResult.expr ⟨false, none, true, [Term.make ["x"]]⟩) := by
  have h := C2_plus_zero_removes_intercept.1 7 9 (FTree.PYTHON_EXPR 8 "x")
    (IntermediateExpr.make false none false [Term.make ["x"]]) rfl
  simpa using h

/-- C9: every `IntermediateExpr` an evaluation produces satisfies the
constructor's invariants: `intercept` and `intercept_removed` are never
both true, and a present intercept carries an origin. -/
theorem C9_intermediate_invariants :
    ∀ (t : FTree) (e : IntermediateExpr),
      eval t = Except.ok (EvalResult.expr e) →
      ¬(e.intercept = true ∧ e.intercept_removed = true)
        ∧ (e.intercept = true → e.intercept_origin.isSome = true) := by
  intro t e h
  have hg := eval_good t e h
  refine ⟨?_, fun hi => (hg.2 hi).2⟩
  rintro ⟨hi, hrm⟩
  rw [(hg.2 hi).1] at hrm
  cases hrm

theorem C9_intermediate_invariants_witness :
    ¬((IntermediateExpr.make true (some 0) false []).intercept = true
        ∧ (IntermediateExpr.make true (some 0) false []).intercept_removed = true)
      ∧ ((IntermediateExpr.make true (some 0) false []).intercept = true →
        (IntermediateExpr.make true (some 0) false []).intercept_origin.isSome = true) :=
  C9_intermediate_invariants (FTree.ONE 0)
    (IntermediateExpr.make true (some 0) false []) rfl

/-- C6: a binary `-` whose right operand is neither the literal `0` nor the
literal `1` keeps the left operand's terms minus every term equal (by
order-independent `Term` equality) to some right-operand term, forcing the
intercept removed when the right operand declared one and inheriting the
left operand's intercept state otherwise; `"a:b - a:b"` and `"a:b - b:a"`
both yield an empty term list. -/
theorem C6_minus_removes_terms :
    (∀ (o : Nat) (l r : FTree) (le re : IntermediateExpr),
      eval l = Except.ok (EvalResult.expr le) →
      eval r = Except.ok (EvalResult.expr re) →
      r.type ≠ "ZERO" → r.type ≠ "ONE" →
      eval (FTree.binary_minus o l r) = Except.ok (EvalResult.expr
        ⟨if re.intercept then false else le.intercept,
         if re.intercept then none else le.intercept_origin,
         if re.intercept then true else le.intercept_removed,
         le.terms.filter (fun term => !(re.terms.contains term))⟩))
    ∧ eval (FTree.binary_minus 0
        (FTree.binary_interact 1 (FTree.PYTHON_EXPR 2 "a") (FTree.PYTHON_EXPR 3 "b"))
        (FTree.binary_interact 4 (FTree.PYTHON_EXPR 5 "a") (FTree.PYTHON_EXPR 6 "b"))) =
        Except.ok (EvalResult.expr ⟨false, none, false, []⟩)
    ∧ eval (FTree.binary_minus 0
        (FTree.binary_interact 1 (FTree.PYTHON_EXPR 2 "a") (FTree.PYTHON_EXPR 3 "b"))
        (FTree.binary_interact 4 (FTree.PYTHON_EXPR 5 "b") (FTree.PYTHON_EXPR 6 "a"))) =
        Except.ok (EvalResult.expr ⟨false, none, false, []⟩) := by
  refine ⟨?_, by rfl, by rfl⟩
  intro o l r le re hl hr hz ho
  have hgl := eval_good l le hl
  simp only [eval, toExpr_of_eval hl]
  have hzb : (r.type == "ZERO") = false := beq_eq_false_iff_ne.mpr hz
  have hob : (r.type == "ONE") = false := beq_eq_false_iff_ne.mpr ho
  simp only [hzb, hob, Bool.false_eq_true, if_false]
  simp only [toExpr_of_eval hr]
  have hfilt := to_unique_tuple_eq_self
    (buniq_filter (fun term => !(re.terms.contains term)) hgl.1.2)
  cases hi : re.intercept <;> simp [IntermediateExpr.make, hfilt]

theorem C6_minus_removes_terms_witness :
    eval (FTree.binary_minus 0 (FTree.PYTHON_EXPR 1 "a") (FTree.PYTHON_EXPR 2 "b")) =
      Except.ok (EvalResult.expr ⟨false, none, false,
        [Term.make ["a"]].filter
          (fun term => !([Term.make ["b"]].contains term))⟩) := by
  have h := C6_minus_removes_terms.1 0 (FTree.PYTHON_EXPR 1 "a")
    (FTree.PYTHON_EXPR 2 "b")
    (IntermediateExpr.make false none false [Term.make ["a"]])
    (IntermediateExpr.make false none false [Term.make ["b"]])
    rfl rfl (by decide) (by decide)
  exact h

/-- C7: evaluating `:` fails with
`"intercept term cannot interact with anything else"` carrying the pending
intercept's origin whenever an operand has a pending present intercept
(left checked first); otherwise the result's terms are exactly the
(deduplicated) pairwise concatenations over the cross product
`left.terms × right.terms`, with no main-effect terms added. In particular
`"a:1"` fails at the `1` node's origin. -/
theorem C7_interaction_semantics :
    (∀ (o : Nat) (l r : FTree) (le re : IntermediateExpr),
      eval l = Except.ok (EvalResult.expr le) →
      eval r = Except.ok (EvalResult.expr re) →
      le.intercept = true →
      eval (FTree.binary_interact o l r) = Except.error
        ⟨"intercept term cannot interact with anything else", le.intercept_origin⟩)
    ∧ (∀ (o : Nat) (l r : FTree) (le re : IntermediateExpr),
      eval l = Except.ok (EvalResult.expr le) →
      eval r = Except.ok (EvalResult.expr re) →
      le.intercept = false → re.intercept = true →
      eval (FTree.binary_interact o l r) = Except.error
        ⟨"intercept term cannot interact with anything else", re.intercept_origin⟩)
    ∧ (∀ (o : Nat) (l r : FTree) (le re : IntermediateExpr),
      eval l = Except.ok (EvalResult.expr le) →
      eval r = Except.ok (EvalResult.expr re) →
      le.intercept = false → re.intercept = false →
      eval (FTree.binary_interact o l r) = Except.ok (EvalResult.expr
        ⟨false, none, false,
         to_unique_tuple (_interaction_terms le.terms re.terms)⟩))
    ∧ eval (FTree.binary_interact 0 (FTree.PYTHON_EXPR 1 "a") (FTree.ONE 2)) =
        Except.error
          ⟨"intercept term cannot interact with anything else", some 2⟩ := by
  refine ⟨?_, ?_, ?_, by rfl⟩
  · intro o l r le re hl hr hi
    simp only [eval, toExpr_of_eval hl, toExpr_of_eval hr,
      interaction_error_left hi]
  · intro o l r le re hl hr hli hri
    simp only [eval, toExpr_of_eval hl, toExpr_of_eval hr,
      interaction_error_right hli hri]
  · intro o l r le re hl hr hli hri
    simp only [eval, toExpr_of_eval hl, toExpr_of_eval hr,
      interaction_eq hli hri]
    rfl

theorem C7_interaction_semantics_witness :
    eval (FTree.binary_interact 0 (FTree.ONE 1) (FTree.PYTHON_EXPR 2 "b")) =
      Except.error
        ⟨"intercept term cannot interact with anything else", some 1⟩ := by
  have h := C7_interaction_semantics.1 0 (FTree.ONE 1) (FTree.PYTHON_EXPR 2 "b")
    (IntermediateExpr.make true (some 1) false [])
    (IntermediateExpr.make false none false [Term.make ["b"]])
    rfl rfl rfl
  exact h

/-- C10: the intercept check shared by `:`, `*`, `/` and `**` rejects an
operand only when its pending intercept is present; an operand whose
intercept was merely removed is accepted, and an interaction's result
always has `intercept = false` and `intercept_removed = false`, silently
dropping any removed state (e.g. `"(a - 1):b"` succeeds). -/
theorem C10_interactable_check :
    (∀ e : IntermediateExpr, e.intercept = false →
      _check_interactable e = Except.ok ())
    ∧ (∀ e : IntermediateExpr, e.intercept = true →
      _check_interactable e = Except.error
        ⟨"intercept term cannot interact with anything else", e.intercept_origin⟩)
    ∧ (∀ le re : IntermediateExpr, le.intercept = false → re.intercept = false →
      _interaction le re = Except.ok (IntermediateExpr.make false none false
          (_interaction_terms le.terms re.terms))
        ∧ (IntermediateExpr.make false none false
            (_interaction_terms le.terms re.terms)).intercept = false
        ∧ (IntermediateExpr.make false none false
            (_interaction_terms le.terms re.terms)).intercept_removed = false)
    ∧ eval (FTree.binary_interact 0
        (FTree.binary_minus 1 (FTree.PYTHON_EXPR 2 "a") (FTree.ONE 3))
        (FTree.PYTHON_EXPR 4 "b")) =
      Except.ok (EvalResult.expr ⟨false, none, false, [Term.make ["a", "b"]]⟩) :=
  ⟨fun _ h => check_interactable_ok h,
   fun _ h => check_interactable_error h,
   fun _ _ h1 h2 => ⟨interaction_eq h1 h2, rfl, rfl⟩,
   by rfl⟩

theorem C10_interactable_check_witness :
    _check_interactable (IntermediateExpr.make false none true []) =
      Except.ok () :=
  C10_interactable_check.1 (IntermediateExpr.make false none true []) rfl

theorem tut_append_tut {α : Type} [BEq α] (xs ys : List α) :
    to_unique_tuple (xs ++ to_unique_tuple ys) = to_unique_tuple (xs ++ ys) := by
  induction xs with
  | nil => simpa using to_unique_tuple_eq_self (to_unique_tuple_buniq ys)
  | cons x xs ih => simp [to_unique_tuple, ih]

/-- C3: a binary `/` whose left operand has no pending intercept yields the
left operand's terms followed by the interactions of one combined term —
built from the concatenation of all factors across every left term — with
each right-operand term (the whole list deduplicated per the term-list
uniqueness rule); `"(a + b)/c"` gives `{a, b, a:b:c}`, not
`{a, b, a:c, b:c}`. -/
theorem C3_div_collapses_left :
    (∀ (o : Nat) (l r : FTree) (le re e : IntermediateExpr),
      eval l = Except.ok (EvalResult.expr le) →
      eval r = Except.ok (EvalResult.expr re) →
      le.intercept = false →
      eval (FTree.binary_div o l r) = Except.ok (EvalResult.expr e) →
      e = ⟨false, none, false, to_unique_tuple (le.terms ++
        _interaction_terms [Term.make (le.terms.flatMap Term.factors)]
          re.terms)⟩)
    ∧ eval (FTree.binary_div 0
        (FTree.binary_plus 1 (FTree.PYTHON_EXPR 2 "a") (FTree.PYTHON_EXPR 3 "b"))
        (FTree.PYTHON_EXPR 4 "c")) =
      Except.ok (EvalResult.expr ⟨false, none, false,
        [Term.make ["a"], Term.make ["b"], Term.make ["a", "b", "c"]]⟩)
    ∧ [Term.make ["a"], Term.make ["b"], Term.make ["a", "b", "c"]] ≠
      [Term.make ["a"], Term.make ["b"], Term.make ["a", "c"],
        Term.make ["b", "c"]] := by
  refine ⟨?_, by rfl, by decide⟩
  intro o l r le re e hl hr hli h
  simp only [eval, toExpr_of_eval hl, toExpr_of_eval hr,
    check_interactable_ok hli] at h
  cases hri : re.intercept with
  | true =>
    rw [interaction_error_right rfl hri] at h
    simp at h
  | false =>
    rw [interaction_eq rfl hri] at h
    simp only [Except.ok.injEq, EvalResult.expr.injEq] at h
    rw [← h]
    simp only [IntermediateExpr.make, IntermediateExpr.mk.injEq,
      true_and]
    rw [tut_append_tut]
    rfl

theorem C3_div_collapses_left_witness :
    (⟨false, none, false, [Term.make ["a"], Term.make ["a", "b"]]⟩ :
        IntermediateExpr) =
      ⟨false, none, false, to_unique_tuple
        ((IntermediateExpr.make false none false [Term.make ["a"]]).terms ++
          _interaction_terms
            [Term.make ((IntermediateExpr.make false none false
              [Term.make ["a"]]).terms.flatMap Term.factors)]
            (IntermediateExpr.make false none false
              [Term.make ["b"]]).terms)⟩ := by
  have h := C3_div_collapses_left.1 0 (FTree.PYTHON_EXPR 1 "a")
    (FTree.PYTHON_EXPR 2 "b")
    (IntermediateExpr.make false none false [Term.make ["a"]])
    (IntermediateExpr.make false none false [Term.make ["b"]])
    ⟨false, none, false, [Term.make ["a"], Term.make ["a", "b"]]⟩
    rfl rfl rfl rfl
  exact h

theorem power_eval_formula (o ro : Nat) (l : FTree) (le : IntermediateExpr)
    (k : Int) (hl : eval l = Except.ok (EvalResult.expr le))
    (hli : le.intercept = false) (hk : 1 ≤ k) :
    eval (FTree.binary_power o l (FTree.NUMBER ro (some k))) =
      Except.ok (EvalResult.expr ⟨false, none, false, to_unique_tuple
        (le.terms ++ iterStages le.terms le.terms
          (min le.terms.length k.toNat - 1))⟩) := by
  simp only [eval, toExpr_of_eval hl, check_interactable_ok hli]
  have hnl : ¬(powerValue (FTree.NUMBER ro (some k)) < 1) := by
    simp only [powerValue]
    omega
  rw [if_neg hnl]
  rw [power_loop_eq _ le le le.terms hli hli]
  rfl

/-- C4: a binary `**` whose left operand has no pending intercept and whose
exponent is a positive integer literal `k` yields the left operand's terms
plus the interaction orders obtained by repeatedly interacting the growing
product with the original term set, for `min(number of left terms, k) - 1`
rounds (`iterStages`), accumulated in order; exponents above the number of
left terms are silently capped, and `"(a+b+c+d)**2"` gives the four main
effects plus exactly the six 2-way interactions and no 3-way terms. -/
theorem C4_power_expansion :
    (∀ (o ro : Nat) (l : FTree) (le : IntermediateExpr) (k : Int),
      eval l = Except.ok (EvalResult.expr le) → le.intercept = false →
      1 ≤ k →
      eval (FTree.binary_power o l (FTree.NUMBER ro (some k))) =
        Except.ok (EvalResult.expr ⟨false, none, false, to_unique_tuple
          (le.terms ++ iterStages le.terms le.terms
            (min le.terms.length k.toNat - 1))⟩))
    ∧ (∀ (o r1 r2 : Nat) (l : FTree) (le : IntermediateExpr) (k1 k2 : Int),
      eval l = Except.ok (EvalResult.expr le) → le.intercept = false →
      1 ≤ k1 → 1 ≤ k2 →
      (le.terms.length : Int) ≤ k1 → (le.terms.length : Int) ≤ k2 →
      eval (FTree.binary_power o l (FTree.NUMBER r1 (some k1))) =
        eval (FTree.binary_power o l (FTree.NUMBER r2 (some k2))))
    ∧ eval (FTree.binary_power 20 (FTree.binary_plus 21 (FTree.binary_plus 22
        (FTree.binary_plus 23 (FTree.PYTHON_EXPR 24 "a")
          (FTree.PYTHON_EXPR 25 "b"))
        (FTree.PYTHON_EXPR 26 "c")) (FTree.PYTHON_EXPR 27 "d"))
        (FTree.NUMBER 28 (some 2))) =
      Except.ok (EvalResult.expr ⟨false, none, false,
        [Term.make ["a"], Term.make ["b"], Term.make ["c"], Term.make ["d"],
         Term.make ["a", "b"], Term.make ["a", "c"], Term.make ["a", "d"],
         Term.make ["b", "c"], Term.make ["b", "d"],
         Term.make ["c", "d"]]⟩) := by
  refine ⟨power_eval_formula, ?_, by rfl⟩
  intro o r1 r2 l le k1 k2 hl hli hk1 hk2 hn1 hn2
  rw [power_eval_formula o r1 l le k1 hl hli hk1,
    power_eval_formula o r2 l le k2 hl hli hk2]
  have e1 : min le.terms.length k1.toNat = le.terms.length :=
    Nat.min_eq_left (by omega)
  have e2 : min le.terms.length k2.toNat = le.terms.length :=
    Nat.min_eq_left (by omega)
  rw [e1, e2]

theorem C4_power_expansion_witness :
    eval (FTree.binary_power 0
        (FTree.binary_plus 1 (FTree.PYTHON_EXPR 2 "a") (FTree.PYTHON_EXPR 3 "b"))
        (FTree.NUMBER 4 (some 5))) =
      Except.ok (EvalResult.expr ⟨false, none, false, to_unique_tuple
        (((IntermediateExpr.make false none false
            [Term.make ["a"], Term.make ["b"]]).terms ++
          iterStages (IntermediateExpr.make false none false
              [Term.make ["a"], Term.make ["b"]]).terms
            (IntermediateExpr.make false none false
              [Term.make ["a"], Term.make ["b"]]).terms
            (min (IntermediateExpr.make false none false
              [Term.make ["a"], Term.make ["b"]]).terms.length
              (Int.toNat 5) - 1)))⟩) := by
  have h := C4_power_expansion.1 0 4
    (FTree.binary_plus 1 (FTree.PYTHON_EXPR 2 "a") (FTree.PYTHON_EXPR 3 "b"))
    (IntermediateExpr.make false none false [Term.make ["a"], Term.make ["b"]])
    5 rfl rfl (by norm_num)
  exact h

theorem nodup_of_buniq {α : Type} [BEq α] [LawfulBEq α] {l : List α}
    (h : BUnique l) : l.Nodup := by
  unfold BUnique at h
  refine h.imp ?_
  intro a b hab hEq
  subst hEq
  simp at hab

theorem term_make_hash_eq {fs gs : List Factor}
    (h : (Term.make fs == Term.make gs) = true) :
    (Term.make fs).hashVal = (Term.make gs).hashVal := by
  have hmem := term_beq_iff.mp h
  have d1 : (to_unique_tuple fs).Nodup :=
    nodup_of_buniq (to_unique_tuple_buniq fs)
  have d2 : (to_unique_tuple gs).Nodup :=
    nodup_of_buniq (to_unique_tuple_buniq gs)
  have hperm : List.Perm (to_unique_tuple fs) (to_unique_tuple gs) :=
    (List.perm_ext_iff_of_nodup d1 d2).mpr hmem
  unfold Term.hashVal
  rw [show (Term.make fs).factors = to_unique_tuple fs from rfl,
    show (Term.make gs).factors = to_unique_tuple gs from rfl,
    List.Perm.sum_eq (hperm.map factorHash), hperm.length_eq]

/-- C5: terms built from two factor sequences are equal iff the sequences
hold the same factors (order-independent), and equal terms have equal
hashes; in particular `Term([a,b]) == Term([b,a])` with equal hashes. -/
theorem C5_term_set_equality :
    (∀ (fs gs : List Factor),
      ((Term.make fs == Term.make gs) = true ↔ ∀ f, f ∈ fs ↔ f ∈ gs))
    ∧ (∀ (fs gs : List Factor), (Term.make fs == Term.make gs) = true →
      (Term.make fs).hashVal = (Term.make gs).hashVal)
    ∧ (∀ (a b : Factor), (Term.make [a, b] == Term.make [b, a]) = true
      ∧ (Term.make [a, b]).hashVal = (Term.make [b, a]).hashVal) := by
  have hiff : ∀ (fs gs : List Factor),
      ((Term.make fs == Term.make gs) = true ↔ ∀ f, f ∈ fs ↔ f ∈ gs) := by
    intro fs gs
    rw [term_beq_iff]
    constructor
    · intro h f
      have hf := h f
      rwa [show (Term.make fs).factors = to_unique_tuple fs from rfl,
        show (Term.make gs).factors = to_unique_tuple gs from rfl,
        mem_to_unique_tuple, mem_to_unique_tuple] at hf
    · intro h f
      rw [show (Term.make fs).factors = to_unique_tuple fs from rfl,
        show (Term.make gs).factors = to_unique_tuple gs from rfl,
        mem_to_unique_tuple, mem_to_unique_tuple]
      exact h f
  refine ⟨hiff, fun fs gs h => term_make_hash_eq h, ?_⟩
  intro a b
  have hb : (Term.make [a, b] == Term.make [b, a]) = true := by
    rw [hiff]
    intro f
    simp [or_comm]
  exact ⟨hb, term_make_hash_eq hb⟩

theorem C5_term_set_equality_witness :
    (Term.make ["x", "y"] == Term.make ["y", "x"]) = true
      ∧ (Term.make ["x", "y"]).hashVal = (Term.make ["y", "x"]).hashVal :=
  ⟨by decide, C5_term_set_equality.2.1 ["x", "y"] ["y", "x"] (by decide)⟩

theorem string_empty_append (s : String) : "" ++ s = s := rfl

/-- C8: `describe()` renders `"<lhs> ~ <rhs>"` with intercept terms
rendering as `1` and names joined by `" + "`: a right-hand list that is
exactly `(INTERCEPT,)` renders as `1`, and when `INTERCEPT` is absent from
the right-hand list a `0` term leads the remaining non-intercept names —
i.e. `describe` agrees with the spec's formulation `describe_claim` on
every `ModelDesc`, and on the source's own examples. -/
theorem C8_describe_rendering :
    (∀ m : ModelDesc, m.describe = describe_claim m)
    ∧ (ModelDesc.make [INTERCEPT, Term.make ["a"]]
        [Term.make ["a"], Term.make ["a", "b"]]).describe
        = "1 + a ~ 0 + a + a:b"
    ∧ (ModelDesc.make [] []).describe = "~ 0"
    ∧ (ModelDesc.make [INTERCEPT] [INTERCEPT]).describe = "1 ~ 1"
    ∧ (ModelDesc.make [INTERCEPT] [INTERCEPT, Term.make ["b"]]).describe
        = "1 ~ b" := by
  refine ⟨?_, by rfl, by rfl, by rfl, by rfl⟩
  intro m
  by_cases h1 : (m.rhs_termlist == [INTERCEPT]) = true
  · by_cases h0 : String.intercalate " + " (m.lhs_termlist.map term_code) = ""
    · simp [ModelDesc.describe, describe_claim, h1, h0, term_code,
        term_beq_refl, string_empty_append]
    · simp [ModelDesc.describe, describe_claim, h1, h0, term_code,
        term_beq_refl]
  · by_cases h2 : m.rhs_termlist.contains INTERCEPT = true
    · by_cases h0 : String.intercalate " + " (m.lhs_termlist.map term_code) = ""
      · simp [ModelDesc.describe, describe_claim, h1, h2, h0,
          string_empty_append]
      · simp [ModelDesc.describe, describe_claim, h1, h2, h0]
    · have h2f : m.rhs_termlist.contains INTERCEPT = false := by
        simpa using h2
      have hfilt : m.rhs_termlist.filter (fun t => !(t == INTERCEPT))
          = m.rhs_termlist := by
        apply List.filter_eq_self.mpr
        intro t ht
        have hci := contains_eq_false_iff.mp h2f t ht
        rw [term_beq_symm] at hci
        simp [hci]
      by_cases h0 : String.intercalate " + " (m.lhs_termlist.map term_code) = ""
      · simp [ModelDesc.describe, describe_claim, h1, h2f, h0, hfilt,
          string_empty_append]
      · simp [ModelDesc.describe, describe_claim, h1, h2f, h0, hfilt]

end Charlton
